import Mathlib

/-!
Verification of the chunk-splitting build step (`scripts/split-public-files.mjs`)
and the runtime reconstruction routine (`src/js/utils/libreoffice-loader.ts`).

File contents are modelled as lists of bytes (`List Nat`), the filesystem as an
explicit list of files, and the network as an explicit fetch oracle.  Paths are
PUBLIC_DIR-relative, forward-slash normalized (mirroring
`path.relative(PUBLIC_DIR, filePath).replace(/\\/g, '/')`), so the manifest file
is identified by its bare name.
-/

/-- `MAX_SIZE` from split-public-files.mjs: `20 * 1024 * 1024` (20 MiB). -/
def MAX_SIZE : Nat := 20 * 1024 * 1024

/-- `MANIFEST_FILE` from split-public-files.mjs, as a PUBLIC_DIR-relative path. -/
def MANIFEST_FILE : String := "chunks-manifest.json"

/-- A regular file: PUBLIC_DIR-relative path and its byte content. -/
structure FsFile where
  path : String
  content : List Nat
deriving DecidableEq

/-- `buffer.subarray(start, stop)` on a byte list. -/
def subarray (buf : List Nat) (start stop : Nat) : List Nat :=
  (buf.drop start).take (stop - start)

/-- `Math.ceil(stats.size / MAX_SIZE)` on naturals. -/
def totalChunksOf (size maxSize : Nat) : Nat :=
  (size + maxSize - 1) / maxSize

/-- The chunk payloads of the splitting loop (lines 68-75 of
split-public-files.mjs): chunk `i` is `buffer.subarray(i*MAX_SIZE,
min(i*MAX_SIZE + MAX_SIZE, size))`, for `i = 0 .. totalChunks - 1`. -/
def chunkSlices (buf : List Nat) (maxSize : Nat) : List (List Nat) :=
  (List.range (totalChunksOf buf.length maxSize)).map fun i =>
    subarray buf (i * maxSize) (min (i * maxSize + maxSize) buf.length)

/-- The chunk files written by the splitting loop: chunk `i` is stored at
`filePath ++ ".part" ++ toString (i+1)`. -/
def chunkFiles (maxSize : Nat) (f : FsFile) : List FsFile :=
  (List.range (totalChunksOf f.content.length maxSize)).map fun i =>
    ⟨f.path ++ ".part" ++ toString (i + 1),
     subarray f.content (i * maxSize) (min (i * maxSize + maxSize) f.content.length)⟩

/-- JS object property lookup `manifest[key]` on an association list. -/
def lookupKey (m : List (String × Nat)) (k : String) : Option Nat :=
  match m with
  | [] => none
  | p :: rest => if p.1 = k then some p.2 else lookupKey rest k

/-- JS object property assignment `manifest[key] = v`: overwrite in place if the
key is present, append otherwise. -/
def upsert (m : List (String × Nat)) (k : String) (v : Nat) : List (String × Nat) :=
  if m.any (fun p => p.1 = k) then
    m.map (fun p => if p.1 = k then (k, v) else p)
  else
    m ++ [(k, v)]

/-- State threaded through the `for (const filePath of files)` loop of
`splitFiles`: the in-memory manifest, the `changed` flag, and the files
present on disk after processing (the manifest file handled separately). -/
structure SplitResult where
  manifest : List (String × Nat)
  changed : Bool
  outFiles : List FsFile
deriving DecidableEq

/-- One iteration of the `splitFiles` loop (lines 49-82): skip the manifest
file; if `stats.size > MAX_SIZE`, record `totalChunks` in the manifest, write
the chunk files and delete the original; otherwise leave the file as is. -/
def splitStep (maxSize : Nat) (st : SplitResult) (f : FsFile) : SplitResult :=
  if f.path = MANIFEST_FILE then st
  else if maxSize < f.content.length then
    { manifest := upsert st.manifest f.path (totalChunksOf f.content.length maxSize)
      changed := true
      outFiles := st.outFiles ++ chunkFiles maxSize f }
  else
    { st with outFiles := st.outFiles ++ [f] }

/-- The `splitFiles` run over all files found under PUBLIC_DIR, starting from
the loaded manifest and `changed = false`.  Lines 84-89 then rewrite the
manifest file on disk exactly when the resulting `changed` flag is true. -/
def splitFiles (maxSize : Nat) (initialManifest : List (String × Nat))
    (files : List FsFile) : SplitResult :=
  files.foldl (splitStep maxSize) ⟨initialManifest, false, []⟩

/-- The three states the manifest file on disk can be in when `splitFiles`
starts (lines 38-45): absent, present but not valid JSON, or parsed. -/
inductive ManifestOnDisk where
  | absent
  | corrupt
  | parsed (m : List (String × Nat))
deriving DecidableEq

/-- Manifest loading (lines 38-45): `manifest = {}` unless the file exists and
parses; a parse failure is caught and the run starts fresh. -/
def loadManifest : ManifestOnDisk → List (String × Nat)
  | .absent => []
  | .corrupt => []
  | .parsed m => m

/-- Outcome of `fetch(manifestUrl)` followed by `manifestRes.json()` in
`getReconstructedFileUrl`: the fetch can reject, return a non-ok status, return
an ok status with a body that is not valid JSON, or deliver a parsed manifest. -/
inductive ManifestFetch where
  | networkError
  | notOk
  | badJson
  | ok (manifest : List (String × Nat))
deriving DecidableEq

/-- Outcome of `fetch(chunkUrl)` for one chunk: reject, non-ok status, or an
ok status delivering the chunk bytes (`chunkRes.blob()`). -/
inductive ChunkFetch where
  | networkError
  | notOk
  | ok (body : List Nat)
deriving DecidableEq

/-- Whether a chunk fetch succeeded (`chunkRes.ok` and no rejection). -/
def ChunkFetch.isOk : ChunkFetch → Bool
  | .ok _ => true
  | _ => false

/-- The network as seen by `getReconstructedFileUrl`: the module-level
`DIST_URL` configuration, the manifest fetch outcome, and a fetch oracle for
chunk URLs. -/
structure FetchEnv where
  DIST_URL : String
  manifestFetch : ManifestFetch
  chunkFetch : String → ChunkFetch

/-- JS `s.startsWith(pre)`, modelled on the underlying character list
(the URLs involved are ASCII, where JS code units and characters agree). -/
def strStartsWith (s pre : String) : Bool := pre.data.isPrefixOf s.data

/-- JS `s.substring(n)` (drop the first `n` characters). -/
def strDrop (s : String) (n : Nat) : String := ⟨s.data.drop n⟩

/-- JS `s.length`. -/
def strLength (s : String) : Nat := s.data.length

/-- The manifest key computation of lines 45-51: strip the `DIST_URL` prefix
from `originalUrl` if present, then strip one leading `/` if present. -/
def manifestKey (DIST_URL originalUrl : String) : String :=
  let r := if strStartsWith originalUrl DIST_URL
           then strDrop originalUrl (strLength DIST_URL) else originalUrl
  if strStartsWith r "/" then strDrop r 1 else r

/-- The sequential chunk loop of lines 63-69, fetching chunks `i+1 .. i+k` (in
the source `i` starts at 0 and `k = totalChunks`).  Returns the collected chunk
bodies (`none` when some fetch rejected or had a non-ok status, which the
source turns into a thrown error) together with the list of chunk URLs actually
fetched, in order. -/
def fetchChunksAux (fetch : String → ChunkFetch) (originalUrl : String) :
    Nat → Nat → Option (List (List Nat)) × List String
  | _, 0 => (some [], [])
  | i, k + 1 =>
    let chunkUrl := originalUrl ++ ".part" ++ toString (i + 1)
    match fetch chunkUrl with
    | .ok body =>
      let r := fetchChunksAux fetch originalUrl (i + 1) k
      (r.1.map fun rest => body :: rest, chunkUrl :: r.2)
    | _ => (none, [chunkUrl])

/-- The chunk loop started at `i = 0`. -/
def fetchChunks (fetch : String → ChunkFetch) (originalUrl : String) (n : Nat) :
    Option (List (List Nat)) × List String :=
  fetchChunksAux fetch originalUrl 0 n

/-- What `getReconstructedFileUrl` hands back to its caller: either the direct
(unsplit) URL, or an object URL for an in-memory blob holding the given bytes
(`URL.createObjectURL(new Blob(chunks))`). -/
inductive ResolveResult where
  | direct (url : String)
  | objectUrl (bytes : List Nat)
deriving DecidableEq

/-- `getReconstructedFileUrl(basePath, fileName)` (lines 25-84), together with
the list of chunk URLs it fetched.  Every failure path (manifest fetch not ok,
rejected, or malformed JSON; manifest entry absent or falsy; any chunk fetch
failing, which the source raises and then catches at line 77) returns the
direct URL `basePath ++ fileName`. -/
def getReconstructedFileUrl (env : FetchEnv) (basePath fileName : String) :
    ResolveResult × List String :=
  let originalUrl := basePath ++ fileName
  match env.manifestFetch with
  | .networkError => (.direct originalUrl, [])
  | .notOk => (.direct originalUrl, [])
  | .badJson => (.direct originalUrl, [])
  | .ok manifest =>
    let relativePath := manifestKey env.DIST_URL originalUrl
    match lookupKey manifest relativePath with
    | none => (.direct originalUrl, [])
    | some 0 => (.direct originalUrl, [])
    | some totalChunks =>
      let r := fetchChunks env.chunkFetch originalUrl totalChunks
      match r.1 with
      | some chunkBodies => (.objectUrl chunkBodies.flatten, r.2)
      | none => (.direct originalUrl, r.2)

/-- `LIBREOFFICE_LOCAL_PATH` from libreoffice-loader.ts (line 10). -/
def LIBREOFFICE_LOCAL_PATH (BASE_URL : String) : String :=
  BASE_URL ++ "libreoffice-wasm/"

/-- The only state of a `LibreOfficeConverter` relevant to construction: the
base path chosen by the constructor. -/
structure LibreOfficeConverter where
  basePath : String
deriving DecidableEq

/-- The `LibreOfficeConverter` constructor (lines 92-94):
`this.basePath = basePath || LIBREOFFICE_LOCAL_PATH`, where the argument is
optional and `||` treats the empty string as falsy. -/
def LibreOfficeConverter.make (BASE_URL : String) (basePath : Option String) :
    LibreOfficeConverter :=
  ⟨match basePath with
   | some s => if s = "" then LIBREOFFICE_LOCAL_PATH BASE_URL else s
   | none => LIBREOFFICE_LOCAL_PATH BASE_URL⟩

/-- `getLibreOfficeConverter` (lines 246-253) with the module-level
`converterInstance` passed and returned explicitly: construct the singleton on
first call, return the existing instance afterwards. -/
def getLibreOfficeConverter (BASE_URL : String)
    (converterInstance : Option LibreOfficeConverter) (basePath : Option String) :
    LibreOfficeConverter × Option LibreOfficeConverter :=
  match converterInstance with
  | none =>
    let c := LibreOfficeConverter.make BASE_URL basePath
    (c, some c)
  | some c => (c, some c)

/-- A concrete network serving file `f` split into the two chunks of
`[1, 2, 3]` at chunk size 2. -/
def envRoundtrip : FetchEnv :=
  ⟨"", .ok [("f", 2)],
   fun u => if u = "f.part1" then .ok [1, 2]
            else if u = "f.part2" then .ok [3] else .notOk⟩

/-- A concrete network whose manifest fetch returns a non-ok status. -/
def envManifestDown : FetchEnv := ⟨"/", .notOk, fun _ => .notOk⟩

/-- A concrete network with a three-chunk manifest entry for `g` whose second
chunk fetch fails. -/
def envChunkDown : FetchEnv :=
  ⟨"", .ok [("g", 3)], fun u => if u = "g.part2" then .notOk else .ok [0]⟩

/-- A concrete network whose manifest has no entry for the requested file. -/
def envUnsplit : FetchEnv := ⟨"/app/", .ok [("big.bin", 2)], fun _ => .ok []⟩

/-- A concrete network with a two-chunk entry for
`libreoffice-wasm/soffice.data.gz` under `DIST_URL = "/"`. -/
def envNaming : FetchEnv :=
  ⟨"/", .ok [("libreoffice-wasm/soffice.data.gz", 2)], fun _ => .ok []⟩

/-! ### Round-trip of the splitting loop -/

theorem subarray_shift (buf : List Nat) (m j : Nat) :
    subarray buf ((j + 1) * m) (min ((j + 1) * m + m) buf.length) =
    subarray (buf.drop m) (j * m) (min (j * m + m) (buf.drop m).length) := by
  have hsm : (j + 1) * m = j * m + m := Nat.succ_mul j m
  simp only [subarray, List.drop_drop, List.length_drop, hsm]
  have hidx : m + j * m = j * m + m := Nat.add_comm _ _
  rw [hidx]
  congr 1
  generalize j * m = a
  generalize buf.length = L
  omega

theorem take_of_min_length (buf : List Nat) (m : Nat) :
    buf.take (min m buf.length) = buf.take m := by
  rcases Nat.le_total m buf.length with h | h
  · rw [Nat.min_eq_left h]
  · rw [Nat.min_eq_right h, List.take_of_length_le h,
        List.take_of_length_le (Nat.le_refl _)]

theorem join_slices (n : Nat) : ∀ (buf : List Nat) (m : Nat), 0 < m →
    buf.length ≤ n * m →
    ((List.range n).map fun i =>
      subarray buf (i * m) (min (i * m + m) buf.length)).flatten = buf := by
  induction n with
  | zero =>
    intro buf m _ hlen
    simp only [Nat.zero_mul, Nat.le_zero] at hlen
    simp [List.eq_nil_of_length_eq_zero hlen]
  | succ n ih =>
    intro buf m hm hlen
    rw [List.range_succ_eq_map, List.map_cons, List.map_map, List.flatten_cons]
    have h0 : subarray buf (0 * m) (min (0 * m + m) buf.length) = buf.take m := by
      simp only [subarray, Nat.zero_mul, Nat.zero_add, List.drop_zero, Nat.sub_zero]
      exact take_of_min_length buf m
    have htail : ((List.range n).map
        ((fun i => subarray buf (i * m) (min (i * m + m) buf.length)) ∘ Nat.succ)).flatten
        = buf.drop m := by
      have hcongr : ∀ j ∈ List.range n,
          ((fun i => subarray buf (i * m) (min (i * m + m) buf.length)) ∘ Nat.succ) j =
          (fun i => subarray (buf.drop m) (i * m) (min (i * m + m) (buf.drop m).length)) j := by
        intro j _
        exact subarray_shift buf m j
      rw [List.map_congr_left hcongr]
      apply ih (buf.drop m) m hm
      rw [List.length_drop]
      have hsucc : (n + 1) * m = n * m + m := by ring
      generalize hnm : n * m = a at hsucc ⊢
      rw [hsucc] at hlen
      omega
    rw [h0, htail, List.take_append_drop]

theorem length_le_totalChunks_mul (L m : Nat) (hm : 0 < m) :
    L ≤ totalChunksOf L m * m := by
  unfold totalChunksOf
  rw [Nat.mul_comm]
  have h := Nat.div_add_mod (L + m - 1) m
  have h2 : (L + m - 1) % m < m := Nat.mod_lt _ hm
  generalize m * ((L + m - 1) / m) = P at *
  omega

/-- Concatenating the chunk slices in index order reproduces the buffer. -/
theorem chunkSlices_flatten (C : List Nat) (m : Nat) (hm : 0 < m) :
    (chunkSlices C m).flatten = C :=
  join_slices (totalChunksOf C.length m) C m hm (length_le_totalChunks_mul _ _ hm)

/-! ### Behaviour of the sequential chunk loop -/

theorem map_getD_range (l : List (List Nat)) (d : List Nat) :
    (List.range l.length).map (fun i => l.getD i d) = l := by
  induction l with
  | nil => simp
  | cons x xs ih =>
    rw [List.length_cons, List.range_succ_eq_map, List.map_cons, List.map_map]
    simp only [List.getD_cons_zero]
    rw [show ((fun i => (x :: xs).getD i d) ∘ Nat.succ) = (fun i => xs.getD i d)
      from funext fun i => rfl, ih]

theorem fetchChunksAux_ok (fetch : String → ChunkFetch) (url : String)
    (f : Nat → List Nat) :
    ∀ (k i : Nat),
    (∀ j, j < k → fetch (url ++ ".part" ++ toString (i + j + 1)) = .ok (f (i + j))) →
    fetchChunksAux fetch url i k =
      (some ((List.range k).map fun j => f (i + j)),
       (List.range k).map fun j => url ++ ".part" ++ toString (i + j + 1)) := by
  intro k
  induction k with
  | zero => intro i _; simp [fetchChunksAux]
  | succ k ih =>
    intro i h
    have h0 : fetch (url ++ ".part" ++ toString (i + 1)) = .ok (f i) := by
      have h' := h 0 (Nat.succ_pos k)
      simpa using h'
    have hrest := ih (i + 1) (fun j hj => by
      have h' := h (j + 1) (by omega)
      have harg : i + (j + 1) = i + 1 + j := by omega
      rw [harg] at h'
      exact h')
    have hmap1 : ((List.range (k + 1)).map fun j => f (i + j)) =
        f i :: ((List.range k).map fun j => f (i + 1 + j)) := by
      rw [List.range_succ_eq_map, List.map_cons, List.map_map]
      simp only [Nat.add_zero]
      congr 1
      apply List.map_congr_left
      intro j _
      simp only [Function.comp, Nat.succ_eq_add_one]
      congr 1
      omega
    have hmap2 : ((List.range (k + 1)).map fun j =>
          url ++ ".part" ++ toString (i + j + 1)) =
        (url ++ ".part" ++ toString (i + 1)) ::
          ((List.range k).map fun j => url ++ ".part" ++ toString (i + 1 + j + 1)) := by
      rw [List.range_succ_eq_map, List.map_cons, List.map_map]
      simp only [Nat.add_zero]
      congr 1
      apply List.map_congr_left
      intro j _
      simp only [Function.comp, Nat.succ_eq_add_one]
      congr 3
      omega
    rw [fetchChunksAux]
    simp only [h0, hrest, Option.map_some', hmap1, hmap2]

theorem fetchChunksAux_fail (fetch : String → ChunkFetch) (url : String) :
    ∀ (k i j : Nat), j < k →
    (fetch (url ++ ".part" ++ toString (i + j + 1))).isOk = false →
    (fetchChunksAux fetch url i k).1 = none := by
  intro k
  induction k with
  | zero => intro i j hj _; omega
  | succ k ih =>
    intro i j hj hfail
    rw [fetchChunksAux]
    cases hfetch : fetch (url ++ ".part" ++ toString (i + 1)) with
    | ok body =>
      simp only [hfetch]
      cases j with
      | zero =>
        rw [Nat.add_zero] at hfail
        rw [hfetch] at hfail
        simp [ChunkFetch.isOk] at hfail
      | succ j' =>
        have hnone := ih (i + 1) j' (by omega) (by
          have harg : i + 1 + j' + 1 = i + (j' + 1) + 1 := by omega
          rw [harg]
          exact hfail)
        simp [hnone]
    | notOk => simp [hfetch]
    | networkError => simp [hfetch]

/-! ### Claim theorems -/

/-- C1: for every byte string `C` and positive chunk size `m` with
`len(C) > m`, splitting `C` as the Splitter does (chunk `i` holds bytes
`[i*m, min((i+1)*m, len(C)))`) and then letting the Reconstructor fetch
chunks `1..chunkCount` and concatenate them in ascending index order
reproduces `C` byte-for-byte: the resolved resource is an object URL over
exactly the bytes of `C`. -/
theorem split_reconstruct_roundtrip
    (env : FetchEnv) (basePath fileName : String) (C : List Nat) (m : Nat)
    (M : List (String × Nat))
    (hm : 0 < m) (hlen : m < C.length)
    (hman : env.manifestFetch = .ok M)
    (hkey : lookupKey M (manifestKey env.DIST_URL (basePath ++ fileName)) =
      some (totalChunksOf C.length m))
    (hchunks : ∀ i, i < totalChunksOf C.length m →
      env.chunkFetch ((basePath ++ fileName) ++ ".part" ++ toString (i + 1)) =
        .ok ((chunkSlices C m).getD i [])) :
    getReconstructedFileUrl env basePath fileName =
      (.objectUrl C, (List.range (totalChunksOf C.length m)).map fun i =>
        (basePath ++ fileName) ++ ".part" ++ toString (i + 1)) := by
  have hslices_len : (chunkSlices C m).length = totalChunksOf C.length m := by
    simp [chunkSlices]
  have hpos : 0 < totalChunksOf C.length m :=
    Nat.div_pos (by omega) hm
  obtain ⟨n, hn⟩ : ∃ n, totalChunksOf C.length m = n + 1 :=
    ⟨totalChunksOf C.length m - 1, by omega⟩
  have hfetched := fetchChunksAux_ok env.chunkFetch (basePath ++ fileName)
      (fun j => (chunkSlices C m).getD j []) (totalChunksOf C.length m) 0
      (fun j hj => by simpa using hchunks j hj)
  simp only [Nat.zero_add] at hfetched
  have hflat : ((List.range (totalChunksOf C.length m)).map
      fun j => (chunkSlices C m).getD j []).flatten = C := by
    rw [← hslices_len, map_getD_range, chunkSlices_flatten C m hm]
  rw [hn] at hkey hfetched hflat ⊢
  simp only [getReconstructedFileUrl, hman, hkey, fetchChunks, hfetched, hflat]

theorem split_reconstruct_roundtrip_witness :
    getReconstructedFileUrl envRoundtrip "" "f" =
      (.objectUrl [1, 2, 3], ["f.part1", "f.part2"]) := by
  have h := split_reconstruct_roundtrip envRoundtrip "" "f" [1, 2, 3] 2 [("f", 2)]
    (by decide) (by decide) (by decide) (by decide) (by decide)
  exact h.trans (by decide)

/-- C3: `resolve(basePath, fileName)` never raises — every outcome is either
the direct URL `basePath ++ fileName` or an object URL — and whenever the
manifest fetch does not succeed (network error, non-success status, or
malformed JSON) it returns exactly `basePath ++ fileName`. -/
theorem resolve_manifest_failure_fallback
    (env : FetchEnv) (basePath fileName : String)
    (hfail : env.manifestFetch = .networkError ∨ env.manifestFetch = .notOk ∨
      env.manifestFetch = .badJson) :
    getReconstructedFileUrl env basePath fileName =
      (.direct (basePath ++ fileName), []) ∧
    ∀ env' : FetchEnv,
      (getReconstructedFileUrl env' basePath fileName).1 =
          .direct (basePath ++ fileName) ∨
      ∃ bytes, (getReconstructedFileUrl env' basePath fileName).1 =
          .objectUrl bytes := by
  constructor
  · rcases hfail with h | h | h <;> simp [getReconstructedFileUrl, h]
  · intro env'
    unfold getReconstructedFileUrl
    cases henv : env'.manifestFetch with
    | networkError => left; rfl
    | notOk => left; rfl
    | badJson => left; rfl
    | ok M =>
      cases hk : lookupKey M (manifestKey env'.DIST_URL (basePath ++ fileName)) with
      | none => simp [hk]
      | some n =>
        cases n with
        | zero => simp [hk]
        | succ n' =>
          simp only [hk]
          cases hf : (fetchChunks env'.chunkFetch (basePath ++ fileName) (n' + 1)).1 with
          | none => simp [hf]
          | some bodies => right; exact ⟨bodies.flatten, by simp [hf]⟩

theorem resolve_manifest_failure_fallback_witness :
    getReconstructedFileUrl envManifestDown "/base/" "file.bin" =
      (.direct "/base/file.bin", []) := by
  have h := (resolve_manifest_failure_fallback envManifestDown "/base/" "file.bin"
    (Or.inr (Or.inl rfl))).1
  exact h.trans (by decide)

/-- C4: when the manifest names `n > 0` chunks for the requested file and the
fetch of any chunk `1..n` fails (non-ok status or network error), `resolve`
returns the direct original URL — never a partially assembled resource. -/
theorem resolve_chunk_failure_fallback
    (env : FetchEnv) (basePath fileName : String) (M : List (String × Nat))
    (n : Nat)
    (hman : env.manifestFetch = .ok M)
    (hkey : lookupKey M (manifestKey env.DIST_URL (basePath ++ fileName)) = some n)
    (hn : 0 < n)
    (hfail : ∃ i, i < n ∧
      (env.chunkFetch ((basePath ++ fileName) ++ ".part" ++ toString (i + 1))).isOk
        = false) :
    (getReconstructedFileUrl env basePath fileName).1 =
      .direct (basePath ++ fileName) := by
  obtain ⟨i, hi, hbad⟩ := hfail
  obtain ⟨n', hn'⟩ : ∃ n', n = n' + 1 := ⟨n - 1, by omega⟩
  have hnone : (fetchChunksAux env.chunkFetch (basePath ++ fileName) 0 n).1 = none :=
    fetchChunksAux_fail env.chunkFetch (basePath ++ fileName) n 0 i hi
      (by simpa using hbad)
  rw [hn'] at hkey hnone
  simp only [getReconstructedFileUrl, hman, hkey, fetchChunks, hnone]

theorem resolve_chunk_failure_fallback_witness :
    (getReconstructedFileUrl envChunkDown "" "g").1 = .direct "g" := by
  have h := resolve_chunk_failure_fallback envChunkDown "" "g" [("g", 3)] 3
    (by decide) (by decide) (by decide) ⟨1, by decide, by decide⟩
  exact h.trans (by decide)

/-- C5: the manifest key is `basePath ++ fileName` with the configured
`DIST_URL` prefix stripped and then one leading `/` stripped (`manifestKey`);
when that key's entry is absent or falsy (`0`), resolve returns the original
URL and issues no chunk fetch at all (empty fetch trace). -/
theorem resolve_unsplit_no_fetch
    (env : FetchEnv) (basePath fileName : String) (M : List (String × Nat))
    (hman : env.manifestFetch = .ok M)
    (hkey : lookupKey M (manifestKey env.DIST_URL (basePath ++ fileName)) = none ∨
            lookupKey M (manifestKey env.DIST_URL (basePath ++ fileName)) = some 0) :
    getReconstructedFileUrl env basePath fileName =
      (.direct (basePath ++ fileName), []) := by
  rcases hkey with h | h <;> simp [getReconstructedFileUrl, hman, h]

theorem resolve_unsplit_no_fetch_witness :
    getReconstructedFileUrl envUnsplit "/app/libreoffice-wasm/" "soffice.wasm.gz" =
      (.direct "/app/libreoffice-wasm/soffice.wasm.gz", []) := by
  have h := resolve_unsplit_no_fetch envUnsplit "/app/libreoffice-wasm/"
    "soffice.wasm.gz" [("big.bin", 2)] (by decide) (Or.inl (by decide))
  exact h.trans (by decide)

/-- C8: chunk files are named `<original-path>.part<N>` with `N` 1-indexed and
contiguous from 1 to `chunkCount` (the Splitter writes exactly the paths
`f.path ++ ".part" ++ toString (i+1)` for `i+1 = 1..chunkCount`), and under a
manifest entry of `n` chunks with all fetches succeeding the Reconstructor
fetches exactly the URLs `originalUrl.part1 .. originalUrl.partn`, in order. -/
theorem chunk_naming_contiguous
    (maxSize : Nat) (f : FsFile) (env : FetchEnv) (basePath fileName : String)
    (M : List (String × Nat)) (n : Nat) (bodies : Nat → List Nat)
    (hman : env.manifestFetch = .ok M)
    (hkey : lookupKey M (manifestKey env.DIST_URL (basePath ++ fileName)) = some n)
    (hn : 0 < n)
    (hfetch : ∀ i, i < n →
      env.chunkFetch ((basePath ++ fileName) ++ ".part" ++ toString (i + 1)) =
        .ok (bodies i)) :
    (chunkFiles maxSize f).map FsFile.path =
      (List.range (totalChunksOf f.content.length maxSize)).map
        (fun i => f.path ++ ".part" ++ toString (i + 1)) ∧
    (getReconstructedFileUrl env basePath fileName).2 =
      (List.range n).map
        (fun i => (basePath ++ fileName) ++ ".part" ++ toString (i + 1)) := by
  constructor
  · simp [chunkFiles]
  · obtain ⟨n', hn'⟩ : ∃ n', n = n' + 1 := ⟨n - 1, by omega⟩
    have hfetched := fetchChunksAux_ok env.chunkFetch (basePath ++ fileName)
      bodies n 0 (fun j hj => by simpa using hfetch j hj)
    simp only [Nat.zero_add] at hfetched
    rw [hn'] at hkey hfetched ⊢
    simp only [getReconstructedFileUrl, hman, hkey, fetchChunks, hfetched]

theorem chunk_naming_contiguous_witness :
    (getReconstructedFileUrl envNaming "/libreoffice-wasm/" "soffice.data.gz").2 =
      ["/libreoffice-wasm/soffice.data.gz.part1",
       "/libreoffice-wasm/soffice.data.gz.part2"] := by
  have h := (chunk_naming_contiguous 2 ⟨"libreoffice-wasm/soffice.data.gz", []⟩
    envNaming "/libreoffice-wasm/" "soffice.data.gz"
    [("libreoffice-wasm/soffice.data.gz", 2)] 2 (fun _ => [])
    (by decide) (by decide) (by decide) (by decide)).2
  exact h.trans (by decide)

/-! ### Splitter claims -/

theorem totalChunks_pred_mul_lt (L m : Nat) (hm : 0 < m) (hL : 0 < L) :
    (totalChunksOf L m - 1) * m < L := by
  unfold totalChunksOf
  have h1 : (L + m - 1) / m * m ≤ L + m - 1 := Nat.div_mul_le_self _ _
  have h2 : ((L + m - 1) / m - 1) * m = (L + m - 1) / m * m - m := by
    rw [Nat.sub_mul, Nat.one_mul]
  generalize (L + m - 1) / m * m = P at h1 h2
  generalize ((L + m - 1) / m - 1) * m = Q at h2 ⊢
  omega

theorem split_iff_oversized_general (maxSize : Nat) (name : String) (C : List Nat)
    (hM : 0 < maxSize) (hname : name ≠ MANIFEST_FILE) :
    ((lookupKey (splitFiles maxSize [] [⟨name, C⟩]).manifest name =
        some (totalChunksOf C.length maxSize) ∧
      (splitFiles maxSize [] [⟨name, C⟩]).changed = true) ↔
        maxSize < C.length) ∧
    (maxSize < C.length →
      (splitFiles maxSize [] [⟨name, C⟩]).outFiles =
        chunkFiles maxSize ⟨name, C⟩ ∧
      C.length ≤ totalChunksOf C.length maxSize * maxSize ∧
      (totalChunksOf C.length maxSize - 1) * maxSize < C.length) ∧
    (C.length ≤ maxSize →
      splitFiles maxSize [] [⟨name, C⟩] = ⟨[], false, [⟨name, C⟩]⟩) := by
  have hrun : splitFiles maxSize [] [⟨name, C⟩] =
      if maxSize < C.length then
        ⟨[(name, totalChunksOf C.length maxSize)], true,
         chunkFiles maxSize ⟨name, C⟩⟩
      else ⟨[], false, [⟨name, C⟩]⟩ := by
    unfold splitFiles
    rw [List.foldl_cons, List.foldl_nil]
    unfold splitStep
    rw [if_neg hname]
    by_cases hbig : maxSize < C.length
    · rw [if_pos hbig, if_pos hbig]
      simp [upsert]
    · rw [if_neg hbig, if_neg hbig]
      simp
  by_cases hbig : maxSize < C.length
  · rw [hrun, if_pos hbig]
    refine ⟨⟨fun _ => hbig, fun _ => ⟨?_, rfl⟩⟩, fun _ => ⟨rfl, ?_, ?_⟩,
            fun hle => by omega⟩
    · simp [lookupKey]
    · exact length_le_totalChunks_mul _ _ hM
    · exact totalChunks_pred_mul_lt _ _ hM (by omega)
  · rw [hrun, if_neg hbig]
    exact ⟨⟨fun h => by simp at h, fun h => absurd h hbig⟩,
           fun h => absurd h hbig, fun _ => rfl⟩

/-- C2: with threshold `MAX_SIZE = 20*1024*1024`, a Splitter run over a file
splits it and records a manifest entry iff its size strictly exceeds the
threshold; the recorded chunk count `totalChunksOf` is `ceil(size/MAX_SIZE)`
(characterised by `(q-1)*m < size ≤ q*m`); a file at or below the threshold is
left untouched and produces no manifest entry. -/
theorem split_iff_oversized (name : String) (C : List Nat)
    (hname : name ≠ MANIFEST_FILE) :
    ((lookupKey (splitFiles MAX_SIZE [] [⟨name, C⟩]).manifest name =
        some (totalChunksOf C.length MAX_SIZE) ∧
      (splitFiles MAX_SIZE [] [⟨name, C⟩]).changed = true) ↔
        MAX_SIZE < C.length) ∧
    (MAX_SIZE < C.length →
      (splitFiles MAX_SIZE [] [⟨name, C⟩]).outFiles =
        chunkFiles MAX_SIZE ⟨name, C⟩ ∧
      C.length ≤ totalChunksOf C.length MAX_SIZE * MAX_SIZE ∧
      (totalChunksOf C.length MAX_SIZE - 1) * MAX_SIZE < C.length) ∧
    (C.length ≤ MAX_SIZE →
      splitFiles MAX_SIZE [] [⟨name, C⟩] = ⟨[], false, [⟨name, C⟩]⟩) :=
  split_iff_oversized_general MAX_SIZE name C (by decide) hname

theorem split_iff_oversized_witness :
    splitFiles MAX_SIZE [] [⟨"a", []⟩] = ⟨[], false, [⟨"a", []⟩]⟩ :=
  (split_iff_oversized "a" [] (by decide)).2.2 (by decide)

theorem chunkFiles_content_le (maxSize : Nat) (f : FsFile) :
    ∀ g ∈ chunkFiles maxSize f, g.content.length ≤ maxSize := by
  intro g hg
  simp only [chunkFiles, List.mem_map, List.mem_range] at hg
  obtain ⟨i, hi, rfl⟩ := hg
  simp only [subarray, List.length_take, List.length_drop]
  generalize i * maxSize = a
  generalize f.content.length = L
  omega

theorem foldl_splitStep_content_le (maxSize : Nat) :
    ∀ (fs : List FsFile) (st : SplitResult),
    (∀ f ∈ st.outFiles, f.content.length ≤ maxSize) →
    ∀ f ∈ (fs.foldl (splitStep maxSize) st).outFiles, f.content.length ≤ maxSize := by
  intro fs
  induction fs with
  | nil => intro st h; simpa using h
  | cons g rest ih =>
    intro st h
    rw [List.foldl_cons]
    apply ih
    intro f hf
    unfold splitStep at hf
    by_cases h1 : g.path = MANIFEST_FILE
    · rw [if_pos h1] at hf; exact h f hf
    · rw [if_neg h1] at hf
      by_cases h2 : maxSize < g.content.length
      · rw [if_pos h2] at hf
        simp only [List.mem_append] at hf
        rcases hf with hf | hf
        · exact h f hf
        · exact chunkFiles_content_le maxSize g f hf
      · rw [if_neg h2] at hf
        simp only [List.mem_append, List.mem_singleton] at hf
        rcases hf with hf | rfl
        · exact h f hf
        · omega

theorem foldl_splitStep_no_change (maxSize : Nat) :
    ∀ (fs : List FsFile) (st : SplitResult),
    (∀ f ∈ fs, f.content.length ≤ maxSize) →
    (∀ f ∈ fs, f.path ≠ MANIFEST_FILE) →
    fs.foldl (splitStep maxSize) st = { st with outFiles := st.outFiles ++ fs } := by
  intro fs
  induction fs with
  | nil => intro st _ _; simp
  | cons g rest ih =>
    intro st hsize hpath
    rw [List.foldl_cons]
    have hstep : splitStep maxSize st g = { st with outFiles := st.outFiles ++ [g] } := by
      unfold splitStep
      rw [if_neg (hpath g (by simp)), if_neg (by
        have := hsize g (by simp); omega)]
    rw [hstep, ih _ (fun f hf => hsize f (by simp [hf]))
      (fun f hf => hpath f (by simp [hf]))]
    simp

/-- C6: running the Splitter a second time over already-split output changes
nothing: every file a run leaves on disk has size at most the threshold (chunk
sizes are at most `maxSize` and the size test is strict), so the second run
re-splits no chunk file, keeps every file unchanged, keeps the manifest it
loaded, and reports `changed = false` (hence the manifest file on disk is not
rewritten). -/
theorem splitter_idempotent (maxSize : Nat) (M0 M1 : List (String × Nat))
    (fs : List FsFile)
    (hpaths : ∀ f ∈ (splitFiles maxSize M0 fs).outFiles, f.path ≠ MANIFEST_FILE) :
    splitFiles maxSize M1 ((splitFiles maxSize M0 fs).outFiles) =
      ⟨M1, false, (splitFiles maxSize M0 fs).outFiles⟩ := by
  unfold splitFiles at hpaths ⊢
  have hsize := foldl_splitStep_content_le maxSize fs ⟨M0, false, []⟩ (by simp)
  rw [foldl_splitStep_no_change maxSize _ _ hsize hpaths]
  simp

theorem splitter_idempotent_witness :
    splitFiles 2 [("a", 2)] ((splitFiles 2 [] [⟨"a", [1, 2, 3]⟩]).outFiles) =
      ⟨[("a", 2)], false, (splitFiles 2 [] [⟨"a", [1, 2, 3]⟩]).outFiles⟩ :=
  splitter_idempotent 2 [] [("a", 2)] [⟨"a", [1, 2, 3]⟩] (by decide)

theorem foldl_splitStep_changed (maxSize : Nat) :
    ∀ (fs : List FsFile) (st : SplitResult),
    ((fs.foldl (splitStep maxSize) st).changed = true ↔
      st.changed = true ∨
        ∃ f ∈ fs, f.path ≠ MANIFEST_FILE ∧ maxSize < f.content.length) := by
  intro fs
  induction fs with
  | nil => intro st; simp
  | cons g rest ih =>
    intro st
    rw [List.foldl_cons, ih]
    by_cases h1 : g.path = MANIFEST_FILE
    · have hstep : splitStep maxSize st g = st := by
        unfold splitStep; rw [if_pos h1]
      rw [hstep]
      constructor
      · rintro (h | ⟨f, hf, hp⟩)
        · exact Or.inl h
        · exact Or.inr ⟨f, List.mem_cons_of_mem _ hf, hp⟩
      · rintro (h | ⟨f, hf, hp⟩)
        · exact Or.inl h
        · rcases List.mem_cons.mp hf with rfl | hf'
          · exact absurd h1 hp.1
          · exact Or.inr ⟨f, hf', hp⟩
    · by_cases h2 : maxSize < g.content.length
      · have hstep : (splitStep maxSize st g).changed = true := by
          unfold splitStep; rw [if_neg h1, if_pos h2]
        exact iff_of_true (Or.inl hstep)
          (Or.inr ⟨g, List.mem_cons_self g rest, h1, h2⟩)
      · have hstep : splitStep maxSize st g =
            { st with outFiles := st.outFiles ++ [g] } := by
          unfold splitStep; rw [if_neg h1, if_neg h2]
        rw [hstep]
        constructor
        · rintro (h | ⟨f, hf, hp⟩)
          · exact Or.inl h
          · exact Or.inr ⟨f, List.mem_cons_of_mem _ hf, hp⟩
        · rintro (h | ⟨f, hf, hp⟩)
          · exact Or.inl h
          · rcases List.mem_cons.mp hf with rfl | hf'
            · exact absurd hp.2 h2
            · exact Or.inr ⟨f, hf', hp⟩

/-- C7: a Splitter run ends with `changed = true` — and lines 84-89 rewrite
the manifest file on disk exactly when `changed` holds — iff at least one
scanned file other than the manifest itself strictly exceeds the threshold;
otherwise the manifest file is left untouched. -/
theorem manifest_rewritten_iff_split (maxSize : Nat) (M : List (String × Nat))
    (fs : List FsFile) :
    ((splitFiles maxSize M fs).changed = true ↔
      ∃ f ∈ fs, f.path ≠ MANIFEST_FILE ∧ maxSize < f.content.length) := by
  unfold splitFiles
  rw [foldl_splitStep_changed]
  simp

theorem lookupKey_upsert_cases (M : List (String × Nat)) (k' k : String) (v n : Nat)
    (h : lookupKey (upsert M k' v) k = some n) :
    (k' = k ∧ n = v) ∨ lookupKey M k = some n := by
  unfold upsert at h
  by_cases hmem : (M.any fun p => decide (p.1 = k')) = true
  · rw [if_pos hmem] at h
    clear hmem
    revert h
    induction M with
    | nil => intro h; simp [lookupKey] at h
    | cons p rest ih =>
      intro h
      rw [List.map_cons] at h
      by_cases hp : p.1 = k'
      · rw [if_pos hp] at h
        simp only [lookupKey] at h ⊢
        by_cases hk : k' = k
        · rw [if_pos hk] at h
          exact Or.inl ⟨hk, (Option.some_inj.mp h).symm⟩
        · rw [if_neg hk] at h
          rcases ih h with h' | h'
          · exact Or.inl h'
          · rw [if_neg (fun hpk => hk (hp.symm.trans hpk))]
            exact Or.inr h'
      · rw [if_neg hp] at h
        simp only [lookupKey] at h ⊢
        by_cases hpk : p.1 = k
        · rw [if_pos hpk] at h ⊢
          exact Or.inr h
        · rw [if_neg hpk] at h ⊢
          exact ih h
  · rw [if_neg hmem] at h
    clear hmem
    revert h
    induction M with
    | nil =>
      intro h
      simp only [List.nil_append, lookupKey] at h
      by_cases hk : k' = k
      · rw [if_pos hk] at h
        exact Or.inl ⟨hk, (Option.some_inj.mp h).symm⟩
      · rw [if_neg hk] at h
        simp at h
    | cons p rest ih =>
      intro h
      rw [List.cons_append] at h
      simp only [lookupKey] at h ⊢
      by_cases hpk : p.1 = k
      · rw [if_pos hpk] at h ⊢
        exact Or.inr h
      · rw [if_neg hpk] at h ⊢
        exact ih h

theorem foldl_splitStep_manifest_lookup (maxSize : Nat) :
    ∀ (fs : List FsFile) (st : SplitResult) (k : String) (n : Nat),
    lookupKey (fs.foldl (splitStep maxSize) st).manifest k = some n →
    lookupKey st.manifest k = some n ∨
      ∃ f ∈ fs, f.path = k ∧ maxSize < f.content.length ∧
        n = totalChunksOf f.content.length maxSize := by
  intro fs
  induction fs with
  | nil => intro st k n h; left; exact h
  | cons g rest ih =>
    intro st k n h
    rw [List.foldl_cons] at h
    rcases ih _ k n h with h' | ⟨f, hf, hfk, hfs, hn⟩
    · unfold splitStep at h'
      by_cases h1 : g.path = MANIFEST_FILE
      · rw [if_pos h1] at h'
        left; exact h'
      · by_cases h2 : maxSize < g.content.length
        · rw [if_neg h1, if_pos h2] at h'
          simp only at h'
          rcases lookupKey_upsert_cases _ _ _ _ _ h' with ⟨hgk, hnv⟩ | h''
          · exact Or.inr ⟨g, List.mem_cons_self g rest, hgk, h2, hnv⟩
          · left; exact h''
        · rw [if_neg h1, if_neg h2] at h'
          left; exact h'
    · exact Or.inr ⟨f, List.mem_cons_of_mem _ hf, hfk, hfs, hn⟩

/-- C9: a manifest file that is present but fails to parse does not abort the
Splitter: it starts from the empty manifest, the run is identical to one with
no prior manifest, and every entry of the resulting manifest stems from a file
split during this run. -/
theorem corrupt_manifest_starts_fresh (maxSize : Nat) (fs : List FsFile) :
    loadManifest .corrupt = [] ∧
    splitFiles maxSize (loadManifest .corrupt) fs = splitFiles maxSize [] fs ∧
    ∀ k n,
      lookupKey (splitFiles maxSize (loadManifest .corrupt) fs).manifest k =
        some n →
      ∃ f ∈ fs, f.path = k ∧ maxSize < f.content.length ∧
        n = totalChunksOf f.content.length maxSize := by
  refine ⟨rfl, rfl, ?_⟩
  intro k n h
  unfold splitFiles loadManifest at h
  rcases foldl_splitStep_manifest_lookup maxSize fs _ k n h with h' | h'
  · simp [lookupKey] at h'
  · exact h'

theorem corrupt_manifest_starts_fresh_witness :
    ∃ f ∈ [(⟨"a", [1, 2, 3]⟩ : FsFile)], f.path = "a" ∧ 2 < f.content.length ∧
      2 = totalChunksOf f.content.length 2 :=
  (corrupt_manifest_starts_fresh 2 [⟨"a", [1, 2, 3]⟩]).2.2 "a" 2 (by decide)

/-- C10: `getLibreOfficeConverter` is a process-wide singleton: the first call
constructs the instance from its `basePath` argument, and any later call
returns the existing instance unchanged, silently ignoring whatever
`basePath` it is passed. -/
theorem converter_singleton (BASE_URL : String) (bp1 bp2 : Option String)
    (c : LibreOfficeConverter) :
    getLibreOfficeConverter BASE_URL none bp1 =
      (LibreOfficeConverter.make BASE_URL bp1,
       some (LibreOfficeConverter.make BASE_URL bp1)) ∧
    getLibreOfficeConverter BASE_URL (some c) bp2 = (c, some c) :=
  ⟨rfl, rfl⟩
